import Mathlib

/-
  Verification of the process/scheduler core of the IOS kernel
  (src/kernel/process/process.c, scheduler.c, ipc.c and
  src/kernel/smp/advanced_scheduler.c), as a shallow embedding.

  Machine integers are modelled as Nat with explicit reduction
  modulo 2^32 or 2^64 where the C type is uint32_t or uint64_t.
  Intrusive linked lists (ready queue, priority buckets, mailboxes)
  are modelled as Lean lists holding process values.
-/

namespace IOS

def U32 : Nat := 2 ^ 32
def U64 : Nat := 2 ^ 64
def UINT64_MAX : Nat := 2 ^ 64 - 1
def MAX_PROCESSES : Nat := 256

/-- uint64 subtraction a - b as the C machine computes it (both operands uint64). -/
def u64sub (a b : Nat) : Nat := (a % U64 + U64 - b % U64) % U64

/-- Process states, process.h process_state_t. -/
inductive PState where
  | created
  | ready
  | running
  | blocked
  | sleeping
  | zombie
  | terminated
  deriving DecidableEq

/-- Classic scheduler algorithms, process.h scheduler_algorithm_t. -/
inductive SchedAlg where
  | roundRobin
  | priorityBased
  | cfs
  deriving DecidableEq

/-- The PCB fields of process.h struct process that the classic scheduler,
sleep/wake and tick paths read or write.  The queue links (next/prev) are
represented by list membership instead of intrusive pointers. -/
structure CProc where
  pid : Nat
  state : PState
  priority : Fin 5
  time_slice : Nat
  cpu_time : Nat
  sleep_until : Nat
  last_scheduled : Nat
  context_switches : Nat
  deriving DecidableEq

/-- The file-scope globals of scheduler.c, as one state record.
ready_queue_head/tail become one list; the five priority_queues keep
their array indexing. -/
structure SchedState where
  algorithm : SchedAlg
  ready_queue : List CProc
  priority_queues : Fin 5 → List CProc
  running : Option CProc
  last_schedule_time : Nat
  time_slice_counter : Nat
  ctx_switches : Nat

/-- scheduler.c scheduler_init: clears the ready queue, the running pointer
and all five priority queues, and resets the tick bookkeeping.  The active
algorithm is left as it is. -/
def scheduler_init (t : Nat) (s : SchedState) : SchedState :=
  { s with ready_queue := []
           running := none
           priority_queues := fun _ => []
           last_schedule_time := t
           time_slice_counter := 0 }

/-- scheduler.c scheduler_set_algorithm: record the new algorithm, then
reinitialize the scheduler via scheduler_init. -/
def scheduler_set_algorithm (alg : SchedAlg) (t : Nat) (s : SchedState) : SchedState :=
  scheduler_init t { s with algorithm := alg }

/-- The sorted-insert walk of the SCHED_CFS branch of scheduler_add_process
(scheduler.c lines 116-127): advance while the next node has strictly
smaller cpu_time, then splice the new node in. -/
def cfsWalk (p : CProc) (cur : CProc) : List CProc → List CProc
  | [] => [cur, p]
  | nxt :: rest =>
    if nxt.cpu_time < p.cpu_time then cur :: cfsWalk p nxt rest
    else cur :: p :: nxt :: rest

/-- The SCHED_CFS branch of scheduler_add_process (scheduler.c lines 103-128):
insert sorted by cpu_time ascending, ties going before the head. -/
def cfsInsert (p : CProc) : List CProc → List CProc
  | [] => [p]
  | h :: rest =>
    if p.cpu_time ≤ h.cpu_time then p :: h :: rest
    else cfsWalk p h rest

/-- scheduler.c scheduler_add_process: a process that is not READY is
rejected; otherwise it is enqueued according to the active algorithm
(round robin appends at the tail, priority mode pushes onto its priority
bucket, CFS does a sorted insert by cpu_time). -/
def scheduler_add_process (p : CProc) (s : SchedState) : SchedState :=
  if p.state ≠ PState.ready then s
  else
    match s.algorithm with
    | SchedAlg.roundRobin => { s with ready_queue := s.ready_queue ++ [p] }
    | SchedAlg.priorityBased =>
      { s with priority_queues :=
          Function.update s.priority_queues p.priority (p :: s.priority_queues p.priority) }
    | SchedAlg.cfs => { s with ready_queue := cfsInsert p s.ready_queue }

/-- scheduler.c scheduler_remove_process: unlink the process from the list
that holds it (first occurrence, matching pointer unlinking). -/
def scheduler_remove_process (p : CProc) (s : SchedState) : SchedState :=
  match s.algorithm with
  | SchedAlg.roundRobin | SchedAlg.cfs =>
    { s with ready_queue := s.ready_queue.erase p }
  | SchedAlg.priorityBased =>
    { s with priority_queues :=
        Function.update s.priority_queues p.priority ((s.priority_queues p.priority).erase p) }

/-- The SCHED_PRIORITY branch of scheduler_next (scheduler.c lines 203-213):
scan from PRIORITY_REALTIME (4) down to PRIORITY_IDLE (0) and pop the head
of the first non-empty bucket. -/
def priorityNextScan (s : SchedState) : List (Fin 5) → Option CProc × SchedState
  | [] => (none, s)
  | i :: rest =>
    match s.priority_queues i with
    | [] => priorityNextScan s rest
    | p :: tl =>
      (some p, { s with priority_queues := Function.update s.priority_queues i tl })

/-- scheduler.c scheduler_next: pop the head of the ready queue (round robin
and CFS) or of the highest non-empty priority bucket (priority mode). -/
def scheduler_next (s : SchedState) : Option CProc × SchedState :=
  match s.algorithm with
  | SchedAlg.roundRobin | SchedAlg.cfs =>
    match s.ready_queue with
    | [] => (none, s)
    | p :: _ => (some p, scheduler_remove_process p s)
  | SchedAlg.priorityBased => priorityNextScan s [4, 3, 2, 1, 0]

/-- scheduler.c context_switch: bump the context-switch counters, mark the
target RUNNING, record its scheduling timestamp, and set it as the running
process.  The register-level switch is the platform primitive and is not
modelled. -/
def context_switch (t : Nat) (_fr tgt : CProc) (s : SchedState) : SchedState :=
  { s with ctx_switches := s.ctx_switches + 1
           running := some { tgt with state := PState.running, last_scheduled := t } }

/-- scheduler.c scheduler_yield, with the current process passed explicitly
(the C code reads it through process_get_current): a still-RUNNING caller is
marked READY and re-enqueued, then the next process is selected and switched
to. -/
def scheduler_yield (t : Nat) (cur : CProc) (s : SchedState) : Option CProc × SchedState :=
  let s1 := if cur.state = PState.running then
      scheduler_add_process { cur with state := PState.ready } s
    else s
  match scheduler_next s1 with
  | (some p, s2) => (some p, context_switch t cur p s2)
  | (none, s2) => (none, s2)

/-- scheduler.c scheduler_preempt: bump the time-slice counter; once it
reaches the current process's slice, reset it and yield. -/
def scheduler_preempt (t : Nat) (cur : Option CProc) (s : SchedState) :
    Option CProc × SchedState :=
  match cur with
  | none => (none, s)
  | some c =>
    let s1 := { s with time_slice_counter := (s.time_slice_counter + 1) % U32 }
    if c.time_slice ≤ s1.time_slice_counter then
      scheduler_yield t c { s1 with time_slice_counter := 0 }
    else (none, s1)

/-- process.c process_wake: SLEEPING becomes READY with the deadline
cleared; any other state is a no-op. -/
def process_wake (p : CProc) : CProc :=
  if p.state = PState.sleeping then
    { p with state := PState.ready, sleep_until := 0 }
  else p

/-- The sleeper-wake loop of scheduler.c scheduler_tick (lines 307-316):
scan the whole table; every SLEEPING process whose sleep_until has passed
is woken and re-enqueued, threading the scheduler state through the scan. -/
def tickWakeScan (t : Nat) : List CProc → SchedState → List CProc × SchedState
  | [], s => ([], s)
  | p :: rest, s =>
    if p.state = PState.sleeping ∧ p.sleep_until ≤ t then
      let p' := process_wake p
      let s1 := scheduler_add_process p' s
      let r := tickWakeScan t rest s1
      (p' :: r.1, r.2)
    else
      let r := tickWakeScan t rest s
      (p :: r.1, r.2)

/-- scheduler.c scheduler_tick: charge elapsed ticks to the running current
process, wake expired sleepers, run the preemption check, and record the
tick time. -/
def scheduler_tick (t : Nat) (cur : Option CProc) (table : List CProc) (s : SchedState) :
    List CProc × SchedState × Option CProc :=
  let cur1 := match cur with
    | some c =>
      if c.state = PState.running then
        some { c with cpu_time := (c.cpu_time + u64sub t s.last_schedule_time) % U64 }
      else some c
    | none => none
  let r := tickWakeScan t table s
  let pr := scheduler_preempt t cur1 r.2
  (r.1, { pr.2 with last_schedule_time := t }, pr.1)

/-- process.c process_sleep, line 249: the sleep deadline written into the
uint32 sleep_until field, computed from the 64-bit tick counter and the
millisecond count divided by 10 (the 100 Hz tick conversion). -/
def process_sleep_until (ticks ms : Nat) : Nat := (ticks + ms / 10) % U32

/-- process.c process_sleep: the calling process enters SLEEPING with the
computed deadline (it then yields; the yield is scheduler_yield above). -/
def process_sleep (ticks ms : Nat) (cur : CProc) : CProc :=
  { cur with state := PState.sleeping, sleep_until := process_sleep_until ticks ms }

/-- One post-increment of the next_pid counter with its wraparound to 1
(process.c lines 60-65 and 69-72): the returned value is the old counter. -/
def pidBump (np : Nat) : Nat := if MAX_PROCESSES ≤ np + 1 then 1 else np + 1

/-- The probe loop of process_get_next_pid (process.c lines 68-73),
fuel-bounded: while the probed slot is occupied and the pid is below
MAX_PROCESSES, take the next counter value.  Returns (pid, next_pid) when
the loop exits within the given number of iterations, none otherwise. -/
def pidProbe (occ : Nat → Bool) : Nat → Nat → Nat → Option (Nat × Nat)
  | 0, _, _ => none
  | fuel + 1, pid, np =>
    if occ pid = true ∧ pid < MAX_PROCESSES then pidProbe occ fuel np (pidBump np)
    else some (pid, np)

/-- process.c process_get_next_pid: read-and-bump next_pid, then run the
occupancy probe loop.  occ is the process table's slot occupancy and np the
next_pid global; the result carries the updated next_pid. -/
def process_get_next_pid (occ : Nat → Bool) (np : Nat) (fuel : Nat) : Option (Nat × Nat) :=
  pidProbe occ fuel np (pidBump np)

/-- The four owned resources process_create acquires, in acquisition order
PCB, address space, stack, heap. -/
inductive Res where
  | pcb
  | addrSpace
  | stack
  | heap
  deriving DecidableEq

/-- Observable resource events of one process_create call: kmalloc/kfree of
the PCB, paging_create/destroy_address_space, vmm_alloc/vmm_free of stack
and heap, and the insertion into the process table. -/
inductive CreateEv where
  | acquire (r : Res)
  | release (r : Res)
  | insertTable (pid : Nat)
  deriving DecidableEq

/-- Outcomes of the fallible calls process_create makes, in program order:
kmalloc of the PCB, the pid returned by process_get_next_pid,
paging_create_address_space, vmm_alloc of the stack, vmm_alloc of the heap. -/
structure AllocEnv where
  pcb_ok : Bool
  pid : Nat
  as_ok : Bool
  stack_ok : Bool
  heap_ok : Bool

/-- process.c process_create (lines 86-169) over a table of occupied pids:
each early-return path releases exactly what was acquired, in reverse
order, and only the success path inserts into the table.  The result is
the created pid (none on failure), the table after the call, and the
resource-event trace. -/
def process_create (env : AllocEnv) (table : Nat → Bool) :
    Option Nat × (Nat → Bool) × List CreateEv :=
  if env.pcb_ok = false then
    (none, table, [])
  else if MAX_PROCESSES ≤ env.pid then
    (none, table, [CreateEv.acquire Res.pcb, CreateEv.release Res.pcb])
  else if env.as_ok = false then
    (none, table, [CreateEv.acquire Res.pcb, CreateEv.release Res.pcb])
  else if env.stack_ok = false then
    (none, table,
      [CreateEv.acquire Res.pcb, CreateEv.acquire Res.addrSpace,
       CreateEv.release Res.addrSpace, CreateEv.release Res.pcb])
  else if env.heap_ok = false then
    (none, table,
      [CreateEv.acquire Res.pcb, CreateEv.acquire Res.addrSpace, CreateEv.acquire Res.stack,
       CreateEv.release Res.stack, CreateEv.release Res.addrSpace, CreateEv.release Res.pcb])
  else
    (some env.pid, fun q => if q = env.pid then true else table q,
      [CreateEv.acquire Res.pcb, CreateEv.acquire Res.addrSpace, CreateEv.acquire Res.stack,
       CreateEv.acquire Res.heap, CreateEv.insertTable env.pid])

/-- The resources acquired in a trace, in order. -/
def acquiredRes (evs : List CreateEv) : List Res :=
  evs.filterMap fun e =>
    match e with
    | CreateEv.acquire r => some r
    | _ => none

/-- The resources released in a trace, in order. -/
def releasedRes (evs : List CreateEv) : List Res :=
  evs.filterMap fun e =>
    match e with
    | CreateEv.release r => some r
    | _ => none

/-- ipc.c struct ipc_message: sender pid, payload size and the payload
bytes copied at send time (at most 256 of them). -/
structure IpcMessage where
  sender_pid : Nat
  size : Nat
  data : List Nat
  deriving DecidableEq

/-- A process's lazily-allocated mailbox (process.message_queue): none
until the first send allocates it.  The stored count field of
struct message_queue always equals the list length, so it is derived. -/
def mboxCount : Option (List IpcMessage) → Nat
  | none => 0
  | some q => q.length

/-- ipc.c ipc_send_message, acting on the destination's mailbox (the
destination PCB has already been found by pid): payloads over 256 bytes are
rejected with -1; otherwise the mailbox is allocated if absent and the
message, carrying the first n payload bytes, is appended at the tail.
The BLOCKED-destination wake-up touches the scheduler, not the mailbox,
and is treated separately. -/
def ipc_send_message (sender_pid : Nat) (mbox : Option (List IpcMessage))
    (data : List Nat) (n : Nat) : Option (List IpcMessage) × Int :=
  if 256 < n then (mbox, -1)
  else
    let q := match mbox with
      | none => []
      | some q => q
    (some (q ++ [⟨sender_pid, n, data.take n⟩]), 0)

/-- ipc.c ipc_receive_message on the caller's mailbox: pop the head
message, copy min(size, max_size) bytes, return that length; -1 when the
mailbox is absent or empty.  Result: copied bytes, return value, mailbox
after the call. -/
def ipc_receive_message (mbox : Option (List IpcMessage)) (max_size : Nat) :
    List Nat × Int × Option (List IpcMessage) :=
  match mbox with
  | none => ([], -1, mbox)
  | some [] => ([], -1, mbox)
  | some (msg :: rest) =>
    let copy_size := if msg.size < max_size then msg.size else max_size
    (msg.data.take copy_size, Int.ofNat copy_size, some rest)

/-- Per-process scheduling statistics, the fields of advanced_scheduler.c
struct process_sched_stats read by the selection algorithms. -/
structure AStats where
  runtime : Nat
  last_runtime : Nat
  vruntime : Nat
  neural_class : Nat
  deadline : Nat
  deriving DecidableEq

/-- The PCB fields the advanced scheduler uses: priority indexes the bucket
(clamped), sched_stats is the lazily-allocated statistics block. -/
structure AProc where
  pid : Nat
  priority : Nat
  sched_stats : Option AStats
  deriving DecidableEq

/-- advanced_scheduler.c struct neural_runqueue, the fields the claimed
operations touch.  The expired queues are present in the source but unused
by every selection algorithm, and the per-cpu array indexing (cpu_id < 64)
selects one such record. -/
structure NeuralRQ where
  active_queue : Fin 6 → List AProc
  process_count : Nat
  queue_bitmap : Nat

/-- The priority clamp of sched_add/remove (advanced_scheduler.c lines
286-287 and 309-310): bucket index is the priority, clamped to 5. -/
def finClamp (n : Nat) : Fin 6 :=
  if h : n < 6 then ⟨n, h⟩ else ⟨5, by omega⟩

/-- advanced_scheduler.c sched_init_process_stats: zeroed statistics with
last_runtime stamped from get_system_time and neural class NORMAL (2). -/
def sched_init_process_stats (t : Nat) : AStats :=
  { runtime := 0, last_runtime := t, vruntime := 0, neural_class := 2, deadline := 0 }

/-- advanced_scheduler.c sched_add_process_to_runqueue (the valid-argument
path): push the process onto the bucket for its clamped priority, bump the
uint32 count, set the bitmap bit, and allocate the statistics block on
first add (the kmalloc is modelled as succeeding).  t is get_system_time. -/
def sched_add_process_to_runqueue (t : Nat) (p : AProc) (rq : NeuralRQ) : NeuralRQ :=
  let i := finClamp p.priority
  let p1 := if p.sched_stats = none then
      { p with sched_stats := some (sched_init_process_stats t) }
    else p
  { rq with active_queue := Function.update rq.active_queue i (p1 :: rq.active_queue i)
            process_count := (rq.process_count + 1) % U32
            queue_bitmap := rq.queue_bitmap ||| (1 <<< i.val) }

/-- advanced_scheduler.c sched_remove_process_from_runqueue (the
valid-argument path): unlink the first matching node of the bucket for the
process's clamped priority, if any; the uint32 count is decremented
unconditionally; the bitmap bit is cleared when the bucket is left empty. -/
def sched_remove_process_from_runqueue (p : AProc) (rq : NeuralRQ) : NeuralRQ :=
  let i := finClamp p.priority
  let q1 := (rq.active_queue i).erase p
  { rq with active_queue := Function.update rq.active_queue i q1
            process_count := (rq.process_count + (U32 - 1)) % U32
            queue_bitmap := if q1 = [] then rq.queue_bitmap &&& (U32 - 1 - (1 <<< i.val))
              else rq.queue_bitmap }

/-- The number of entries linked across six buckets. -/
def entriesFun (f : Fin 6 → List AProc) : Nat :=
  (f 0).length + (f 1).length + (f 2).length + (f 3).length + (f 4).length + (f 5).length

/-- The number of linked entries reachable from the six priority buckets. -/
def rq_entries (rq : NeuralRQ) : Nat := entriesFun rq.active_queue

/-- advanced_scheduler.c neural_priority_to_weight. -/
def neural_priority_to_weight (c : Nat) : Nat :=
  match c with
  | 0 => 88761
  | 1 => 29154
  | 2 => 1024
  | 3 => 335
  | 4 => 110
  | 5 => 15
  | _ => 1024

/-- The neural selection score of advanced_scheduler.c line 194, in uint64
arithmetic: (wait_time * class_weight) / (runtime + 1). -/
def neuralScore (wait_time weight runtime : Nat) : Nat :=
  (wait_time * weight % U64) / ((runtime + 1) % U64)

/-- The score neural_pick_next_task computes for one process at time t:
wait_time is t - last_runtime in uint64 arithmetic; a process without a
statistics block is skipped, which the strict best-score comparison makes
equivalent to scoring it 0. -/
def neuralProcScore (t : Nat) (p : AProc) : Nat :=
  match p.sched_stats with
  | some st =>
    neuralScore (u64sub t st.last_runtime) (neural_priority_to_weight st.neural_class) st.runtime
  | none => 0

/-- One step of the neural_pick_next_task scan (advanced_scheduler.c lines
190-201): accumulator is (best_proc, best_score), updated on a strictly
larger score. -/
def neuralStep (t : Nat) (acc : Option AProc × Nat) (p : AProc) : Option AProc × Nat :=
  match p.sched_stats with
  | some st =>
    let score := neuralScore (u64sub t st.last_runtime)
      (neural_priority_to_weight st.neural_class) st.runtime
    if acc.2 < score then (some p, score) else acc
  | none => acc

/-- The bucket scan order of the advanced-scheduler algorithms that visit
all six buckets: bucket 0 first, bucket 5 last. -/
def rqScanList (rq : NeuralRQ) : List AProc :=
  rq.active_queue 0 ++ rq.active_queue 1 ++ rq.active_queue 2 ++
  rq.active_queue 3 ++ rq.active_queue 4 ++ rq.active_queue 5

/-- advanced_scheduler.c neural_pick_next_task, with get_system_time passed
as t: best neural score across all six buckets, best_score starting at 0. -/
def neural_pick_next_task (rq : NeuralRQ) (t : Nat) : Option AProc :=
  ((rqScanList rq).foldl (neuralStep t) (none, 0)).1

/-- One step of the realtime_pick_next_task scan (advanced_scheduler.c
lines 243-252): accumulator is (earliest_deadline, earliest_time), updated
by a process whose statistics carry a non-zero deadline strictly below the
accumulated earliest time. -/
def edfStep (acc : Option AProc × Nat) (p : AProc) : Option AProc × Nat :=
  match p.sched_stats with
  | some st => if 0 < st.deadline ∧ st.deadline < acc.2 then (some p, st.deadline) else acc
  | none => acc

/-- The candidates realtime_pick_next_task scans: the two highest-priority
buckets, 0 then 1. -/
def edfCands (rq : NeuralRQ) : List AProc :=
  rq.active_queue 0 ++ rq.active_queue 1

/-- advanced_scheduler.c realtime_pick_next_task: earliest deadline first
over buckets 0 and 1, earliest_time starting at UINT64_MAX. -/
def realtime_pick_next_task (rq : NeuralRQ) : Option AProc :=
  ((edfCands rq).foldl edfStep (none, UINT64_MAX)).1

/-- Generic shape of the strict-improvement argmax scans of
advanced_scheduler.c: thread (best, best_score) left to right, updating on
a strictly larger value. -/
def scanMax {α : Type} (f : α → Nat) : List α → Option α × Nat → Option α × Nat
  | [], acc => acc
  | p :: rest, acc => scanMax f rest (if acc.2 < f p then (some p, f p) else acc)

/-- Generic shape of the strict-improvement argmin scans: thread
(best, best_key) left to right, updating on a strictly smaller value. -/
def scanMin {α : Type} (f : α → Nat) : List α → Option α × Nat → Option α × Nat
  | [], acc => acc
  | p :: rest, acc => scanMin f rest (if f p < acc.2 then (some p, f p) else acc)

/-- Running maximum of f over a list, seeded with s. -/
def foldMax {α : Type} (f : α → Nat) (s : Nat) : List α → Nat
  | [] => s
  | p :: rest => foldMax f (max s (f p)) rest

/-- Running minimum of f over a list, seeded with s. -/
def foldMin {α : Type} (f : α → Nat) (s : Nat) : List α → Nat
  | [] => s
  | p :: rest => foldMin f (min s (f p)) rest

/-- The key realtime_pick_next_task effectively minimizes: the deadline for
a process whose statistics carry a non-zero deadline, and the UINT64_MAX
sentinel (never selected) otherwise. -/
def edfKey (p : AProc) : Nat :=
  match p.sched_stats with
  | some st => if 0 < st.deadline then st.deadline else UINT64_MAX
  | none => UINT64_MAX

/-- The minimum EDF key over the two scanned buckets, seeded with the
UINT64_MAX sentinel. -/
def edfMin (rq : NeuralRQ) : Nat := foldMin edfKey UINT64_MAX (edfCands rq)

/-- The maximum neural score over all six buckets, seeded with 0. -/
def neuralMax (rq : NeuralRQ) (t : Nat) : Nat :=
  foldMax (neuralProcScore t) 0 (rqScanList rq)

/-- A process is enqueued in the classic scheduler if some queue holds it. -/
def enqueued (p : CProc) (s : SchedState) : Prop :=
  p ∈ s.ready_queue ∨ ∃ i, p ∈ s.priority_queues i

instance (p : CProc) (s : SchedState) : Decidable (enqueued p s) := by
  unfold enqueued
  infer_instance

/-- Enqueue a list of processes in order via scheduler_add_process. -/
def addAll (ps : List CProc) (s : SchedState) : SchedState :=
  ps.foldl (fun s p => scheduler_add_process p s) s

/-- Collect the results of n successive scheduler_next calls. -/
def drainNext : Nat → SchedState → List CProc
  | 0, _ => []
  | n + 1, s =>
    match scheduler_next s with
    | (some p, s1) => p :: drainNext n s1
    | (none, _) => []

/-- The effect of one scheduler_tick on one table entry: an expired sleeper
is woken, everything else is untouched. -/
def tickWakeOne (t : Nat) (p : CProc) : CProc :=
  if p.state = PState.sleeping ∧ p.sleep_until ≤ t then process_wake p else p

/- Concrete inputs used by the witness and counterexample theorems. -/

/-- An allocation environment whose heap allocation fails. -/
def envHeapFail : AllocEnv :=
  { pcb_ok := true, pid := 7, as_ok := true, stack_ok := true, heap_ok := false }

/-- An empty process table. -/
def tblEmpty : Nat → Bool := fun _ => false

/-- A fully occupied process table. -/
def tblFull : Nat → Bool := fun _ => true

/-- A READY process for the classic scheduler. -/
def mkReady (pid : Nat) : CProc :=
  { pid := pid, state := PState.ready, priority := 2, time_slice := 10, cpu_time := 0,
    sleep_until := 0, last_scheduled := 0, context_switches := 0 }

/-- An empty round-robin scheduler state. -/
def schedRR0 : SchedState :=
  { algorithm := SchedAlg.roundRobin, ready_queue := [], priority_queues := fun _ => [],
    running := none, last_schedule_time := 0, time_slice_counter := 0, ctx_switches := 0 }

/-- A sleeper whose deadline is the given tick. -/
def mkSleeper (pid su : Nat) : CProc :=
  { pid := pid, state := PState.sleeping, priority := 2, time_slice := 10, cpu_time := 0,
    sleep_until := su, last_scheduled := 0, context_switches := 0 }

/-- An advanced-scheduler process with given priority and statistics. -/
def mkAProc (pid priority : Nat) (st : Option AStats) : AProc :=
  { pid := pid, priority := priority, sched_stats := st }

/-- Statistics carrying only a deadline. -/
def dlStats (d : Nat) : AStats :=
  { runtime := 0, last_runtime := 0, vruntime := 0, neural_class := 2, deadline := d }

/-- An empty per-core run queue. -/
def rqEmpty : NeuralRQ :=
  { active_queue := fun _ => [], process_count := 0, queue_bitmap := 0 }

/-- A run queue holding the given lists in buckets 0 and 1. -/
def rqTwoBuckets (b0 b1 : List AProc) : NeuralRQ :=
  { active_queue := fun i => if i.val = 0 then b0 else if i.val = 1 then b1 else [],
    process_count := (b0.length + b1.length) % U32, queue_bitmap := 0 }

/-- EDF witness run queue: deadlines 7 (bucket 0) and 3 (bucket 1). -/
def rqEDF : NeuralRQ :=
  rqTwoBuckets [mkAProc 1 0 (some (dlStats 7))] [mkAProc 2 1 (some (dlStats 3))]

/-- EDF counterexample run queue: a lone candidate whose non-zero deadline
equals the UINT64_MAX sentinel. -/
def rqEDFSentinel : NeuralRQ :=
  rqTwoBuckets [mkAProc 1 0 (some (dlStats UINT64_MAX))] []

/-- Neural statistics with the given runtime, last-run time and class. -/
def nrStats (runtime last_runtime neural_class : Nat) : AStats :=
  { runtime := runtime, last_runtime := last_runtime, vruntime := 0,
    neural_class := neural_class, deadline := 0 }

/-- Neural witness run queue: one waiting normal-class process. -/
def rqNeuralPos : NeuralRQ :=
  rqTwoBuckets [mkAProc 1 0 (some (nrStats 0 0 2))] []

/-- Neural counterexample run queue: one process with zero wait, hence
score 0, so the scan never selects it. -/
def rqNeuralZero : NeuralRQ :=
  rqTwoBuckets [mkAProc 1 0 (some (nrStats 0 5 2))] []

/- Generic lemmas about the strict-improvement scans. -/

lemma le_foldMax {α : Type} (f : α → Nat) :
    ∀ (l : List α) (s : Nat), s ≤ foldMax f s l := by
  intro l
  induction l with
  | nil => intro s; exact le_refl s
  | cons p rest ih =>
    intro s
    exact le_trans (le_max_left s (f p)) (ih (max s (f p)))

lemma foldMax_mem_le {α : Type} (f : α → Nat) :
    ∀ (l : List α) (s : Nat) (p : α), p ∈ l → f p ≤ foldMax f s l := by
  intro l
  induction l with
  | nil => intro s p hp; cases hp
  | cons q rest ih =>
    intro s p hp
    rcases List.mem_cons.mp hp with h | h
    · subst h
      exact le_trans (le_max_right s (f p)) (le_foldMax f rest (max s (f p)))
    · exact ih (max s (f q)) p h

lemma foldMax_attains {α : Type} (f : α → Nat) :
    ∀ (l : List α) (s : Nat), foldMax f s l = s ∨ ∃ p ∈ l, f p = foldMax f s l := by
  intro l
  induction l with
  | nil => intro s; exact Or.inl rfl
  | cons q rest ih =>
    intro s
    rcases ih (max s (f q)) with h | ⟨p, hp, hfp⟩
    · rcases max_choice s (f q) with hm | hm
      · exact Or.inl (by rw [show foldMax f s (q :: rest) = foldMax f (max s (f q)) rest from rfl, h, hm])
      · refine Or.inr ⟨q, List.mem_cons_self q rest, ?_⟩
        rw [show foldMax f s (q :: rest) = foldMax f (max s (f q)) rest from rfl, h, hm]
    · exact Or.inr ⟨p, List.mem_cons_of_mem q hp, hfp⟩

lemma scanMax_eq {α : Type} (f : α → Nat) :
    ∀ (l : List α) (b : Option α) (s : Nat),
      scanMax f l (b, s) =
        ((if s < foldMax f s l then l.find? (fun p => decide (f p = foldMax f s l)) else b),
          foldMax f s l) := by
  intro l
  induction l with
  | nil =>
    intro b s
    simp [scanMax, foldMax]
  | cons p rest ih =>
    intro b s
    have hunf : scanMax f (p :: rest) (b, s) =
        scanMax f rest (if s < f p then (some p, f p) else (b, s)) := rfl
    have hMunf : foldMax f s (p :: rest) = foldMax f (max s (f p)) rest := rfl
    by_cases h : s < f p
    · have hmax : max s (f p) = f p := max_eq_right h.le
      rw [hunf, if_pos h, ih, hMunf, hmax]
      set M := foldMax f (f p) rest with hM
      have hle : f p ≤ M := le_foldMax f rest (f p)
      have hsM : s < M := lt_of_lt_of_le h hle
      rw [if_pos hsM]
      by_cases hfm : f p = M
      · have hnlt : ¬ f p < M := by omega
        rw [if_neg hnlt, List.find?_cons_of_pos _ (by simp [hfm])]
      · have hlt : f p < M := lt_of_le_of_ne hle hfm
        rw [if_pos hlt, List.find?_cons_of_neg _ (by simp [hfm])]
    · have hmax : max s (f p) = s := max_eq_left (Nat.not_lt.mp h)
      rw [hunf, if_neg h, ih, hMunf, hmax]
      set M := foldMax f s rest with hM
      by_cases hsM : s < M
      · have hfm : ¬ f p = M := by
          have := Nat.not_lt.mp h
          omega
        rw [if_pos hsM, if_pos hsM, List.find?_cons_of_neg _ (by simp [hfm])]
      · rw [if_neg hsM, if_neg hsM]

lemma foldMin_le {α : Type} (f : α → Nat) :
    ∀ (l : List α) (s : Nat), foldMin f s l ≤ s := by
  intro l
  induction l with
  | nil => intro s; exact le_refl s
  | cons p rest ih =>
    intro s
    exact le_trans (ih (min s (f p))) (min_le_left s (f p))

lemma foldMin_le_mem {α : Type} (f : α → Nat) :
    ∀ (l : List α) (s : Nat) (p : α), p ∈ l → foldMin f s l ≤ f p := by
  intro l
  induction l with
  | nil => intro s p hp; cases hp
  | cons q rest ih =>
    intro s p hp
    rcases List.mem_cons.mp hp with h | h
    · subst h
      exact le_trans (foldMin_le f rest (min s (f p))) (min_le_right s (f p))
    · exact ih (min s (f q)) p h

lemma foldMin_attains {α : Type} (f : α → Nat) :
    ∀ (l : List α) (s : Nat), foldMin f s l = s ∨ ∃ p ∈ l, f p = foldMin f s l := by
  intro l
  induction l with
  | nil => intro s; exact Or.inl rfl
  | cons q rest ih =>
    intro s
    rcases ih (min s (f q)) with h | ⟨p, hp, hfp⟩
    · rcases min_choice s (f q) with hm | hm
      · exact Or.inl (by rw [show foldMin f s (q :: rest) = foldMin f (min s (f q)) rest from rfl, h, hm])
      · refine Or.inr ⟨q, List.mem_cons_self q rest, ?_⟩
        rw [show foldMin f s (q :: rest) = foldMin f (min s (f q)) rest from rfl, h, hm]
    · exact Or.inr ⟨p, List.mem_cons_of_mem q hp, hfp⟩

lemma scanMin_eq {α : Type} (f : α → Nat) :
    ∀ (l : List α) (b : Option α) (s : Nat),
      scanMin f l (b, s) =
        ((if foldMin f s l < s then l.find? (fun p => decide (f p = foldMin f s l)) else b),
          foldMin f s l) := by
  intro l
  induction l with
  | nil =>
    intro b s
    simp [scanMin, foldMin]
  | cons p rest ih =>
    intro b s
    have hunf : scanMin f (p :: rest) (b, s) =
        scanMin f rest (if f p < s then (some p, f p) else (b, s)) := rfl
    have hMunf : foldMin f s (p :: rest) = foldMin f (min s (f p)) rest := rfl
    by_cases h : f p < s
    · have hmin : min s (f p) = f p := min_eq_right h.le
      rw [hunf, if_pos h, ih, hMunf, hmin]
      set M := foldMin f (f p) rest with hM
      have hle : M ≤ f p := foldMin_le f rest (f p)
      have hsM : M < s := lt_of_le_of_lt hle h
      rw [if_pos hsM]
      by_cases hfm : f p = M
      · have hnlt : ¬ M < f p := by omega
        rw [if_neg hnlt, List.find?_cons_of_pos _ (by simp [hfm])]
      · have hlt : M < f p := lt_of_le_of_ne hle (fun he => hfm he.symm)
        rw [if_pos hlt, List.find?_cons_of_neg _ (by simp [hfm])]
    · have hmin : min s (f p) = s := min_eq_left (Nat.not_lt.mp h)
      rw [hunf, if_neg h, ih, hMunf, hmin]
      set M := foldMin f s rest with hM
      by_cases hsM : M < s
      · have hfm : ¬ f p = M := by
          have := Nat.not_lt.mp h
          omega
        rw [if_pos hsM, if_pos hsM, List.find?_cons_of_neg _ (by simp [hfm])]
      · rw [if_neg hsM, if_neg hsM]

/- Bridging the C-shaped folds to the generic scans. -/

lemma neuralStep_eq (t : Nat) (acc : Option AProc × Nat) (p : AProc) :
    neuralStep t acc p =
      if acc.2 < neuralProcScore t p then (some p, neuralProcScore t p) else acc := by
  cases h : p.sched_stats with
  | none => simp [neuralStep, neuralProcScore, h]
  | some st => simp [neuralStep, neuralProcScore, h]

lemma neural_fold_scanMax (t : Nat) :
    ∀ (l : List AProc) (acc : Option AProc × Nat),
      l.foldl (neuralStep t) acc = scanMax (neuralProcScore t) l acc := by
  intro l
  induction l with
  | nil => intro acc; rfl
  | cons p rest ih =>
    intro acc
    show List.foldl (neuralStep t) (neuralStep t acc p) rest = _
    rw [neuralStep_eq]
    exact ih _

lemma edfStep_eq (acc : Option AProc × Nat) (p : AProc) (h : acc.2 ≤ UINT64_MAX) :
    edfStep acc p = if edfKey p < acc.2 then (some p, edfKey p) else acc := by
  cases hs : p.sched_stats with
  | none =>
    have : ¬ UINT64_MAX < acc.2 := Nat.not_lt.mpr h
    simp [edfStep, edfKey, hs, this]
  | some st =>
    by_cases hd : 0 < st.deadline
    · simp [edfStep, edfKey, hs, hd]
    · have : ¬ UINT64_MAX < acc.2 := Nat.not_lt.mpr h
      simp [edfStep, edfKey, hs, hd, this]

lemma edf_fold_scanMin :
    ∀ (l : List AProc) (acc : Option AProc × Nat), acc.2 ≤ UINT64_MAX →
      l.foldl edfStep acc = scanMin edfKey l acc := by
  intro l
  induction l with
  | nil => intro acc _; rfl
  | cons p rest ih =>
    intro acc h
    show List.foldl edfStep (edfStep acc p) rest = _
    rw [edfStep_eq acc p h]
    apply ih
    by_cases hk : edfKey p < acc.2
    · rw [if_pos hk]
      exact le_trans (le_of_lt hk) h
    · rw [if_neg hk]
      exact h

/-- C5 (amended): real-time selection reads only the two highest-priority
buckets (0 and 1); among the processes there whose statistics carry a
non-zero deadline it returns the first process attaining the minimum
deadline, provided that minimum is below the UINT64_MAX scan sentinel — a
candidate whose deadline equals 2^64-1 is never selected; in particular
for two candidates with deadlines d1 < d2 the selected deadline is at most
d1, so the d2 process is never preferred. -/
theorem realtime_edf_min :
    (∀ rq rq' : NeuralRQ, rq'.active_queue 0 = rq.active_queue 0 →
        rq'.active_queue 1 = rq.active_queue 1 →
        realtime_pick_next_task rq' = realtime_pick_next_task rq) ∧
    (∀ rq : NeuralRQ, edfMin rq < UINT64_MAX →
        ∃ q, realtime_pick_next_task rq = some q ∧ q ∈ edfCands rq ∧
          ∃ st, q.sched_stats = some st ∧ 0 < st.deadline ∧ st.deadline = edfMin rq ∧
            ∀ p ∈ edfCands rq, ∀ stp : AStats, p.sched_stats = some stp →
              0 < stp.deadline → st.deadline ≤ stp.deadline) := by
  have hpick : ∀ rq : NeuralRQ,
      realtime_pick_next_task rq =
        (if edfMin rq < UINT64_MAX then
          (edfCands rq).find? (fun p => decide (edfKey p = edfMin rq)) else none) := by
    intro rq
    have h1 : realtime_pick_next_task rq = (scanMin edfKey (edfCands rq) (none, UINT64_MAX)).1 := by
      unfold realtime_pick_next_task
      rw [edf_fold_scanMin (edfCands rq) (none, UINT64_MAX) (le_refl _)]
    rw [h1, scanMin_eq]
    rfl
  constructor
  · intro rq rq' h0 h1
    rw [hpick rq, hpick rq']
    unfold edfMin edfCands
    rw [h0, h1]
  · intro rq hlt
    rw [hpick rq, if_pos hlt]
    have hatt : ∃ p ∈ edfCands rq, edfKey p = edfMin rq := by
      rcases foldMin_attains edfKey (edfCands rq) UINT64_MAX with h | h
      · exact absurd (h ▸ hlt) (lt_irrefl _)
      · exact h
    rcases hatt with ⟨p0, hp0, hk0⟩
    have hsome : ((edfCands rq).find? (fun p => decide (edfKey p = edfMin rq))).isSome := by
      rw [List.find?_isSome]
      exact ⟨p0, hp0, by simp [hk0]⟩
    rcases Option.isSome_iff_exists.mp hsome with ⟨q, hq⟩
    refine ⟨q, hq, List.mem_of_find?_eq_some hq, ?_⟩
    have hkey : edfKey q = edfMin rq := by
      have := List.find?_some hq
      simpa using this
    have hqmem : q ∈ edfCands rq := List.mem_of_find?_eq_some hq
    cases hqs : q.sched_stats with
    | none =>
      exfalso
      rw [edfKey, hqs] at hkey
      simp at hkey
      omega
    | some st =>
      by_cases hd : 0 < st.deadline
      · refine ⟨st, rfl, hd, ?_, ?_⟩
        · simp [edfKey, hqs, hd] at hkey
          exact hkey
        · intro p hp stp hstp hdp
          have hle := foldMin_le_mem edfKey (edfCands rq) UINT64_MAX p hp
          simp [edfKey, hstp, hdp] at hle
          have hle2 : edfMin rq ≤ stp.deadline := hle
          simp [edfKey, hqs, hd] at hkey
          omega
      · exfalso
        simp [edfKey, hqs, hd] at hkey
        omega

/-- C5 counterexample: a lone bucket-0 candidate whose non-zero deadline
equals 2^64-1 (the scan sentinel) is never selected, so selection does not
return a minimum-deadline process from the top two buckets. -/
theorem realtime_sentinel_deadline_cex :
    realtime_pick_next_task rqEDFSentinel = none ∧
    mkAProc 1 0 (some (dlStats UINT64_MAX)) ∈ edfCands rqEDFSentinel ∧
    0 < (dlStats UINT64_MAX).deadline := by
  refine ⟨by decide, by decide, by decide⟩

/-- C5 witness: on a queue with deadlines 7 (bucket 0) and 3 (bucket 1),
the deadline-3 process is selected. -/
theorem realtime_edf_min_witness :
    ∃ q, realtime_pick_next_task rqEDF = some q ∧ q ∈ edfCands rqEDF ∧
      ∃ st, q.sched_stats = some st ∧ 0 < st.deadline ∧ st.deadline = edfMin rqEDF ∧
        ∀ p ∈ edfCands rqEDF, ∀ stp : AStats, p.sched_stats = some stp →
          0 < stp.deadline → st.deadline ≤ stp.deadline :=
  realtime_edf_min.2 rqEDF (by decide)

/-- C9 (amended): the neural score (wait_time * class_weight) / (runtime+1)
is monotone in wait_time as long as the uint64 product wait_time *
class_weight does not wrap; selection returns the first process in scan
order attaining the maximum score, provided that maximum is positive, and
every scanned process's score is bounded by that maximum — when every
score is zero no process is selected. -/
theorem neural_score_monotone_and_pick :
    (∀ w1 w2 weight runtime : Nat, w1 ≤ w2 → w2 * weight < U64 →
        neuralScore w1 weight runtime ≤ neuralScore w2 weight runtime) ∧
    (∀ (rq : NeuralRQ) (t : Nat), 0 < neuralMax rq t →
        neural_pick_next_task rq t =
          (rqScanList rq).find? (fun p => decide (neuralProcScore t p = neuralMax rq t))) ∧
    (∀ (rq : NeuralRQ) (t : Nat) (q : AProc), neural_pick_next_task rq t = some q →
        q ∈ rqScanList rq ∧ neuralProcScore t q = neuralMax rq t ∧
        ∀ p ∈ rqScanList rq, neuralProcScore t p ≤ neuralMax rq t) := by
  have hpick : ∀ (rq : NeuralRQ) (t : Nat),
      neural_pick_next_task rq t =
        (if 0 < neuralMax rq t then
          (rqScanList rq).find? (fun p => decide (neuralProcScore t p = neuralMax rq t))
         else none) := by
    intro rq t
    have h1 : neural_pick_next_task rq t =
        (scanMax (neuralProcScore t) (rqScanList rq) (none, 0)).1 := by
      unfold neural_pick_next_task
      rw [neural_fold_scanMax t (rqScanList rq) (none, 0)]
    rw [h1, scanMax_eq]
    rfl
  refine ⟨?_, ?_, ?_⟩
  · intro w1 w2 weight runtime hw hov
    unfold neuralScore
    have h1 : w1 * weight < U64 := lt_of_le_of_lt (Nat.mul_le_mul_right weight hw) hov
    rw [Nat.mod_eq_of_lt h1, Nat.mod_eq_of_lt hov]
    exact Nat.div_le_div_right (Nat.mul_le_mul_right weight hw)
  · intro rq t hpos
    rw [hpick rq t, if_pos hpos]
  · intro rq t q hq
    rw [hpick rq t] at hq
    by_cases hpos : 0 < neuralMax rq t
    · rw [if_pos hpos] at hq
      refine ⟨List.mem_of_find?_eq_some hq, ?_, ?_⟩
      · have := List.find?_some hq
        simpa using this
      · intro p hp
        exact foldMax_mem_le (neuralProcScore t) (rqScanList rq) 0 p hp
    · rw [if_neg hpos] at hq
      cases hq

/-- C9 counterexample: with class weight 1024 the uint64 product wraps at
wait_time 2^54: the score drops from 2^64-1024 to 0 although wait_time
increased; and a run queue whose only process scores 0 selects nothing,
although that process attains the maximum score. -/
theorem neural_score_overflow_cex :
    neuralScore (2 ^ 54) 1024 0 < neuralScore (2 ^ 54 - 1) 1024 0 ∧
    neural_pick_next_task rqNeuralZero 5 = none := by
  refine ⟨by decide, by decide⟩

/-- C9 witness: monotonicity at (1, 2) and selection on a queue with one
positive-score process. -/
theorem neural_score_monotone_and_pick_witness :
    neuralScore 1 1024 0 ≤ neuralScore 2 1024 0 ∧
    neural_pick_next_task rqNeuralPos 10 =
      (rqScanList rqNeuralPos).find?
        (fun p => decide (neuralProcScore 10 p = neuralMax rqNeuralPos 10)) :=
  ⟨neural_score_monotone_and_pick.1 1 2 1024 0 (by decide) (by decide),
   neural_score_monotone_and_pick.2.1 rqNeuralPos 10 (by decide)⟩

/-- C10: scheduler_set_algorithm, with any algorithm argument,
reinitializes the classic scheduler: afterwards the ready queue is empty,
the running pointer is null and all five priority queues are empty, so
every previously queued process has been dropped from the classic
scheduler's queues without being re-enqueued. -/
theorem set_algorithm_resets_queues (alg : SchedAlg) (t : Nat) (s : SchedState) :
    (scheduler_set_algorithm alg t s).ready_queue = [] ∧
    (scheduler_set_algorithm alg t s).running = none ∧
    (∀ i, (scheduler_set_algorithm alg t s).priority_queues i = []) ∧
    (scheduler_set_algorithm alg t s).algorithm = alg :=
  ⟨rfl, rfl, fun _ => rfl, rfl⟩

/-- C6: a send of n ≤ 256 bytes into an otherwise-empty mailbox followed by
a receive with buffer size m returns the first min(n, m) payload bytes,
reports length min(n, m), and leaves the mailbox count at zero. -/
theorem ipc_round_trip (sender n m : Nat) (data : List Nat)
    (mbox : Option (List IpcMessage)) (hn : n ≤ 256) (hd : data.length = n)
    (hm : mboxCount mbox = 0) :
    (ipc_send_message sender mbox data n).2 = 0 ∧
    (ipc_receive_message (ipc_send_message sender mbox data n).1 m).1 = data.take (min n m) ∧
    (ipc_receive_message (ipc_send_message sender mbox data n).1 m).2.1 = Int.ofNat (min n m) ∧
    mboxCount (ipc_receive_message (ipc_send_message sender mbox data n).1 m).2.2 = 0 := by
  have hsend : ipc_send_message sender mbox data n = (some [⟨sender, n, data.take n⟩], 0) := by
    cases mbox with
    | none => simp [ipc_send_message, Nat.not_lt.mpr hn]
    | some q =>
      have hq0 : q = [] := List.length_eq_zero.mp (by simpa [mboxCount] using hm)
      subst hq0
      simp [ipc_send_message, Nat.not_lt.mpr hn]
  rw [hsend]
  have hdt : data.take n = data := by
    rw [← hd]
    exact List.take_length data
  have hmin : (if n < m then n else m) = min n m := by
    rcases Nat.lt_or_ge n m with h | h
    · simp [h, Nat.min_eq_left h.le]
    · simp [Nat.not_lt.mpr h, Nat.min_eq_right h]
  refine ⟨rfl, ?_, ?_, rfl⟩
  · show (data.take n).take (if n < m then n else m) = data.take (min n m)
    rw [hdt, hmin]
  · show Int.ofNat (if n < m then n else m) = Int.ofNat (min n m)
    rw [hmin]

/-- C6 witness: round trip of the three-byte payload [7, 8, 9] into a
two-byte buffer. -/
theorem ipc_round_trip_witness :
    (ipc_send_message 1 none [7, 8, 9] 3).2 = 0 ∧
    (ipc_receive_message (ipc_send_message 1 none [7, 8, 9] 3).1 2).1 = [7, 8, 9].take (min 3 2) ∧
    (ipc_receive_message (ipc_send_message 1 none [7, 8, 9] 3).1 2).2.1 = Int.ofNat (min 3 2) ∧
    mboxCount (ipc_receive_message (ipc_send_message 1 none [7, 8, 9] 3).1 2).2.2 = 0 :=
  ipc_round_trip 1 3 2 [7, 8, 9] none (by decide) (by decide) (by decide)

/-- C1: whenever a step of process_create fails, the call returns the null
failure indicator, leaves the process table exactly as before, never
inserts into the table, and the released resources are exactly the
previously acquired ones in reverse acquisition order. -/
theorem process_create_rollback (env : AllocEnv) (table : Nat → Bool)
    (hfail : env.pcb_ok = false ∨ MAX_PROCESSES ≤ env.pid ∨ env.as_ok = false ∨
      env.stack_ok = false ∨ env.heap_ok = false) :
    (process_create env table).1 = none ∧
    (process_create env table).2.1 = table ∧
    releasedRes (process_create env table).2.2 =
      (acquiredRes (process_create env table).2.2).reverse ∧
    ∀ pid, CreateEv.insertTable pid ∉ (process_create env table).2.2 := by
  rcases env with ⟨pcb, pid, as, st, hp⟩
  cases pcb <;> cases as <;> cases st <;> cases hp <;>
    simp_all [process_create, acquiredRes, releasedRes] <;>
    (try split_ifs) <;>
    (try simp_all [acquiredRes, releasedRes])

/-- C1 witness: a heap-allocation failure rolls back stack, address space
and PCB and leaves the table untouched. -/
theorem process_create_rollback_witness :
    (process_create envHeapFail tblEmpty).1 = none ∧
    (process_create envHeapFail tblEmpty).2.1 = tblEmpty ∧
    releasedRes (process_create envHeapFail tblEmpty).2.2 =
      (acquiredRes (process_create envHeapFail tblEmpty).2.2).reverse ∧
    ∀ pid, CreateEv.insertTable pid ∉ (process_create envHeapFail tblEmpty).2.2 :=
  process_create_rollback envHeapFail tblEmpty (by decide)

lemma pidBump_bounds (np : Nat) : 1 ≤ pidBump np ∧ pidBump np < MAX_PROCESSES := by
  unfold pidBump MAX_PROCESSES
  split <;> omega

lemma pidProbe_full_none (occ : Nat → Bool)
    (hocc : ∀ p, 1 ≤ p → p < MAX_PROCESSES → occ p = true) :
    ∀ (fuel pid np : Nat), 1 ≤ pid → pid < MAX_PROCESSES → 1 ≤ np → np < MAX_PROCESSES →
      pidProbe occ fuel pid np = none := by
  intro fuel
  induction fuel with
  | zero => intro pid np _ _ _ _; rfl
  | succ fuel ih =>
    intro pid np h1 h2 h3 h4
    show (if occ pid = true ∧ pid < MAX_PROCESSES then pidProbe occ fuel np (pidBump np)
      else some (pid, np)) = none
    rw [if_pos ⟨hocc pid h1 h2, h2⟩]
    exact ih np (pidBump np) h3 h4 (pidBump_bounds np).1 (pidBump_bounds np).2

lemma pidProbe_result_lt (occ : Nat → Bool) :
    ∀ (fuel pid np : Nat) (pr : Nat × Nat), pid < MAX_PROCESSES → np < MAX_PROCESSES →
      pidProbe occ fuel pid np = some pr → pr.1 < MAX_PROCESSES := by
  intro fuel
  induction fuel with
  | zero => intro pid np pr _ _ h; cases h
  | succ fuel ih =>
    intro pid np pr h1 h2 h3
    by_cases hc : occ pid = true ∧ pid < MAX_PROCESSES
    · rw [show pidProbe occ (fuel + 1) pid np =
          (if occ pid = true ∧ pid < MAX_PROCESSES then pidProbe occ fuel np (pidBump np)
            else some (pid, np)) from rfl, if_pos hc] at h3
      exact ih np (pidBump np) pr h2 (pidBump_bounds np).2 h3
    · rw [show pidProbe occ (fuel + 1) pid np =
          (if occ pid = true ∧ pid < MAX_PROCESSES then pidProbe occ fuel np (pidBump np)
            else some (pid, np)) from rfl, if_neg hc] at h3
      cases h3
      exact h1

/-- C2 (code_bug): with every pid slot 1..MAX_PROCESSES-1 occupied, the
probe loop of process_get_next_pid never exits — for any iteration bound —
so process_create hangs instead of failing cleanly; moreover any pid the
probe does return is always below MAX_PROCESSES, so the table-full guard
inside process_create (pid >= MAX_PROCESSES) is unreachable. -/
theorem process_get_next_pid_full_table_stuck :
    (∀ (occ : Nat → Bool) (np fuel : Nat),
        (∀ p, 1 ≤ p → p < MAX_PROCESSES → occ p = true) →
        1 ≤ np → np < MAX_PROCESSES →
        process_get_next_pid occ np fuel = none) ∧
    (∀ (occ : Nat → Bool) (np fuel : Nat) (pr : Nat × Nat),
        np < MAX_PROCESSES →
        process_get_next_pid occ np fuel = some pr → pr.1 < MAX_PROCESSES) := by
  constructor
  · intro occ np fuel hocc h1 h2
    exact pidProbe_full_none occ hocc fuel np (pidBump np) h1 h2
      (pidBump_bounds np).1 (pidBump_bounds np).2
  · intro occ np fuel pr h1 h2
    exact pidProbe_result_lt occ fuel np (pidBump np) pr h1 (pidBump_bounds np).2 h2

/-- C2 witness: on a fully occupied table the probe returns nothing even
with 500 iterations of fuel; on an empty table the probed pid stays below
MAX_PROCESSES. -/
theorem process_get_next_pid_full_table_stuck_witness :
    process_get_next_pid tblFull 1 500 = none ∧ (5 : Nat) < MAX_PROCESSES :=
  ⟨process_get_next_pid_full_table_stuck.1 tblFull 1 500 (fun _ _ _ => rfl)
      (by decide) (by decide),
   process_get_next_pid_full_table_stuck.2 tblEmpty 5 1 (5, 6) (by decide) (by decide)⟩

lemma entriesFun_update (f : Fin 6 → List AProc) (i : Fin 6) (v : List AProc) :
    entriesFun (Function.update f i v) + (f i).length = entriesFun f + v.length := by
  fin_cases i <;> simp [entriesFun, Function.update_apply] <;> omega

/-- C7 (amended): the count-equals-entries invariant is preserved by every
add to a run queue (while the entry count stays within uint32 range) and
by every remove whose process argument is linked in the bucket for its
clamped priority; a remove whose process is not linked there decrements
the uint32 count without unlinking anything, which breaks the equality. -/
theorem runqueue_count_invariant :
    (∀ (t : Nat) (p : AProc) (rq : NeuralRQ),
        rq.process_count = rq_entries rq → rq_entries rq + 1 < U32 →
        (sched_add_process_to_runqueue t p rq).process_count =
          rq_entries (sched_add_process_to_runqueue t p rq)) ∧
    (∀ (p : AProc) (rq : NeuralRQ),
        rq.process_count = rq_entries rq → rq_entries rq < U32 →
        p ∈ rq.active_queue (finClamp p.priority) →
        (sched_remove_process_from_runqueue p rq).process_count =
          rq_entries (sched_remove_process_from_runqueue p rq)) := by
  constructor
  · intro t p rq hinv hlt
    set i := finClamp p.priority with hi
    set p1 := if p.sched_stats = none then
        { p with sched_stats := some (sched_init_process_stats t) } else p with hp1
    have hupd := entriesFun_update rq.active_queue i (p1 :: rq.active_queue i)
    have hcount : (sched_add_process_to_runqueue t p rq).process_count =
        (rq.process_count + 1) % U32 := rfl
    have hentries : rq_entries (sched_add_process_to_runqueue t p rq) =
        entriesFun (Function.update rq.active_queue i (p1 :: rq.active_queue i)) := rfl
    rw [hcount, hentries, hinv]
    have hlen : (p1 :: rq.active_queue i).length = (rq.active_queue i).length + 1 := rfl
    rw [hlen] at hupd
    unfold rq_entries at hlt ⊢
    rw [Nat.mod_eq_of_lt hlt]
    omega
  · intro p rq hinv hlt hmem
    set i := finClamp p.priority with hi
    have hupd := entriesFun_update rq.active_queue i ((rq.active_queue i).erase p)
    have hcount : (sched_remove_process_from_runqueue p rq).process_count =
        (rq.process_count + (U32 - 1)) % U32 := rfl
    have hentries : rq_entries (sched_remove_process_from_runqueue p rq) =
        entriesFun (Function.update rq.active_queue i ((rq.active_queue i).erase p)) := rfl
    have hlen : ((rq.active_queue i).erase p).length = (rq.active_queue i).length - 1 :=
      List.length_erase_of_mem hmem
    have hpos : 0 < (rq.active_queue i).length := List.length_pos.mpr (List.ne_nil_of_mem hmem)
    rw [hcount, hentries, hinv]
    rw [hlen] at hupd
    unfold rq_entries at hlt ⊢
    have hU : 0 < U32 := by decide
    have heq : entriesFun rq.active_queue + (U32 - 1) =
        (entriesFun rq.active_queue - 1) + U32 := by omega
    rw [heq, Nat.add_mod_right, Nat.mod_eq_of_lt (by omega)]
    omega

/-- C7 counterexample: removing a process from an empty run queue leaves
zero linked entries but underflows the uint32 count to 2^32 - 1. -/
theorem runqueue_count_underflow_cex :
    (sched_remove_process_from_runqueue (mkAProc 1 0 none) rqEmpty).process_count = U32 - 1 ∧
    rq_entries (sched_remove_process_from_runqueue (mkAProc 1 0 none) rqEmpty) = 0 ∧
    U32 - 1 ≠ 0 := by
  refine ⟨by decide, by decide, by decide⟩

/-- C7 witness: adding to an empty queue and removing a linked process both
preserve count = entries. -/
theorem runqueue_count_invariant_witness :
    (sched_add_process_to_runqueue 0 (mkAProc 1 0 none) rqEmpty).process_count =
      rq_entries (sched_add_process_to_runqueue 0 (mkAProc 1 0 none) rqEmpty) ∧
    (sched_remove_process_from_runqueue (mkAProc 1 0 none)
        (rqTwoBuckets [mkAProc 1 0 none] [])).process_count =
      rq_entries (sched_remove_process_from_runqueue (mkAProc 1 0 none)
        (rqTwoBuckets [mkAProc 1 0 none] [])) :=
  ⟨runqueue_count_invariant.1 0 (mkAProc 1 0 none) rqEmpty (by decide) (by decide),
   runqueue_count_invariant.2 (mkAProc 1 0 none) (rqTwoBuckets [mkAProc 1 0 none] [])
      (by decide) (by decide) (by decide)⟩

/- Classic-scheduler lemmas for the round-robin and wake claims. -/

lemma add_rr (p : CProc) (s : SchedState) (halg : s.algorithm = SchedAlg.roundRobin)
    (hp : p.state = PState.ready) :
    scheduler_add_process p s = { s with ready_queue := s.ready_queue ++ [p] } := by
  simp [scheduler_add_process, hp, halg]

lemma addAll_rr :
    ∀ (ps : List CProc) (s : SchedState), s.algorithm = SchedAlg.roundRobin →
      (∀ p ∈ ps, p.state = PState.ready) →
      (addAll ps s).ready_queue = s.ready_queue ++ ps ∧
      (addAll ps s).algorithm = SchedAlg.roundRobin := by
  intro ps
  induction ps with
  | nil =>
    intro s halg _
    exact ⟨by simp [addAll], halg⟩
  | cons p rest ih =>
    intro s halg hready
    have hp := hready p (List.mem_cons_self p rest)
    have hstep := add_rr p s halg hp
    have hunf : addAll (p :: rest) s = addAll rest (scheduler_add_process p s) := rfl
    have h2 := ih (scheduler_add_process p s) (by rw [hstep]; exact halg) fun q hq =>
      hready q (List.mem_cons_of_mem p hq)
    rw [hunf]
    refine ⟨?_, h2.2⟩
    rw [h2.1, hstep]
    simp

lemma drain_rr :
    ∀ (ps : List CProc) (s : SchedState), s.algorithm = SchedAlg.roundRobin →
      s.ready_queue = ps → drainNext ps.length s = ps := by
  intro ps
  induction ps with
  | nil => intro s _ _; rfl
  | cons p rest ih =>
    intro s halg hq
    have hnext : scheduler_next s = (some p, { s with ready_queue := rest }) := by
      simp [scheduler_next, halg, hq, scheduler_remove_process]
    show drainNext (rest.length + 1) s = p :: rest
    rw [show drainNext (rest.length + 1) s =
        (match scheduler_next s with
          | (some q, s1) => q :: drainNext rest.length s1
          | (none, _) => []) from rfl, hnext]
    show p :: drainNext rest.length { s with ready_queue := rest } = p :: rest
    rw [ih { s with ready_queue := rest } halg rfl]

/-- C3: with round robin active, processes enqueued in order P1..Pn with no
removals are returned by successive scheduler_next calls in exactly that
order, and a still-RUNNING caller of scheduler_yield is re-appended at the
tail of the ready queue — not the head — before the next process is
selected. -/
theorem round_robin_fifo_and_yield_tail :
    (∀ (ps : List CProc) (s : SchedState),
        s.algorithm = SchedAlg.roundRobin → s.ready_queue = [] →
        (∀ p ∈ ps, p.state = PState.ready) →
        drainNext ps.length (addAll ps s) = ps) ∧
    (∀ (t : Nat) (cur : CProc) (s : SchedState),
        s.algorithm = SchedAlg.roundRobin → cur.state = PState.running →
        (scheduler_yield t cur s).1 =
          (s.ready_queue ++ [{ cur with state := PState.ready }]).head? ∧
        (scheduler_yield t cur s).2.ready_queue =
          (s.ready_queue ++ [{ cur with state := PState.ready }]).tail) := by
  constructor
  · intro ps s halg hq hready
    have h1 := addAll_rr ps s halg hready
    exact drain_rr ps (addAll ps s) h1.2 (by rw [h1.1, hq]; simp)
  · intro t cur s halg hrun
    have hadd := add_rr { cur with state := PState.ready } s halg rfl
    have hyunf : scheduler_yield t cur s =
        (match scheduler_next (scheduler_add_process { cur with state := PState.ready } s) with
          | (some p, s2) => (some p, context_switch t cur p s2)
          | (none, s2) => (none, s2)) := by
      unfold scheduler_yield
      rw [if_pos hrun]
    rcases hqe : s.ready_queue ++ [{ cur with state := PState.ready }] with _ | ⟨h, t2⟩
    · exact absurd hqe (by simp)
    · have hnext : scheduler_next (scheduler_add_process { cur with state := PState.ready } s) =
          (some h, { s with ready_queue := t2 }) := by
        rw [hadd]
        simp [scheduler_next, halg, hqe, scheduler_remove_process]
      rw [hyunf, hnext, hqe]
      exact ⟨rfl, rfl⟩

/-- C3 witness: two READY processes drain in insertion order, and a RUNNING
process yielding with a non-empty queue hands over to the queue head while
landing at the tail. -/
theorem round_robin_fifo_and_yield_tail_witness :
    drainNext ([mkReady 1, mkReady 2].length) (addAll [mkReady 1, mkReady 2] schedRR0) =
      [mkReady 1, mkReady 2] ∧
    (scheduler_yield 0 { mkReady 3 with state := PState.running }
        { schedRR0 with ready_queue := [mkReady 1] }).1 =
      ([mkReady 1] ++ [{ { mkReady 3 with state := PState.running } with
        state := PState.ready }]).head? :=
  ⟨round_robin_fifo_and_yield_tail.1 [mkReady 1, mkReady 2] schedRR0 rfl rfl (by decide),
   (round_robin_fifo_and_yield_tail.2 0 { mkReady 3 with state := PState.running }
      { schedRR0 with ready_queue := [mkReady 1] } rfl rfl).1⟩

lemma mem_cfsWalk_self (p : CProc) :
    ∀ (l : List CProc) (cur : CProc), p ∈ cfsWalk p cur l := by
  intro l
  induction l with
  | nil => intro cur; simp [cfsWalk]
  | cons nxt rest ih =>
    intro cur
    unfold cfsWalk
    split
    · exact List.mem_cons_of_mem cur (ih nxt)
    · simp

lemma mem_cfsWalk_of_mem (p q : CProc) :
    ∀ (l : List CProc) (cur : CProc), q ∈ cur :: l → q ∈ cfsWalk p cur l := by
  intro l
  induction l with
  | nil =>
    intro cur hq
    rcases List.mem_cons.mp hq with h | h
    · simp [cfsWalk, h]
    · cases h
  | cons nxt rest ih =>
    intro cur hq
    unfold cfsWalk
    split
    · rcases List.mem_cons.mp hq with h | h
      · exact h ▸ List.mem_cons_self cur _
      · exact List.mem_cons_of_mem cur (ih nxt h)
    · rcases List.mem_cons.mp hq with h | h
      · simp [h]
      · simp [List.mem_cons.mp h]

lemma mem_cfsInsert_self (p : CProc) (l : List CProc) : p ∈ cfsInsert p l := by
  cases l with
  | nil => simp [cfsInsert]
  | cons h rest =>
    show p ∈ if p.cpu_time ≤ h.cpu_time then p :: h :: rest else cfsWalk p h rest
    split
    · simp
    · exact mem_cfsWalk_self p rest h

lemma mem_cfsInsert_of_mem (p q : CProc) (l : List CProc) (hq : q ∈ l) :
    q ∈ cfsInsert p l := by
  cases l with
  | nil => cases hq
  | cons h rest =>
    show q ∈ if p.cpu_time ≤ h.cpu_time then p :: h :: rest else cfsWalk p h rest
    split
    · exact List.mem_cons_of_mem p hq
    · exact mem_cfsWalk_of_mem p q rest h hq

lemma add_pb (p : CProc) (s : SchedState) (halg : s.algorithm = SchedAlg.priorityBased)
    (hp : p.state = PState.ready) :
    scheduler_add_process p s =
      { s with priority_queues :=
          Function.update s.priority_queues p.priority (p :: s.priority_queues p.priority) } := by
  simp [scheduler_add_process, hp, halg]

lemma add_cfs (p : CProc) (s : SchedState) (halg : s.algorithm = SchedAlg.cfs)
    (hp : p.state = PState.ready) :
    scheduler_add_process p s = { s with ready_queue := cfsInsert p s.ready_queue } := by
  simp [scheduler_add_process, hp, halg]

lemma add_not_ready (p : CProc) (s : SchedState) (hp : p.state ≠ PState.ready) :
    scheduler_add_process p s = s := by
  simp [scheduler_add_process, hp]

lemma enqueued_add_self (p : CProc) (s : SchedState) (hp : p.state = PState.ready) :
    enqueued p (scheduler_add_process p s) := by
  cases halg : s.algorithm with
  | roundRobin =>
    rw [add_rr p s halg hp]
    exact Or.inl (by simp)
  | priorityBased =>
    rw [add_pb p s halg hp]
    refine Or.inr ⟨p.priority, ?_⟩
    show p ∈ Function.update s.priority_queues p.priority
      (p :: s.priority_queues p.priority) p.priority
    simp
  | cfs =>
    rw [add_cfs p s halg hp]
    exact Or.inl (mem_cfsInsert_self p s.ready_queue)

lemma enqueued_add_mono (p q : CProc) (s : SchedState) (h : enqueued q s) :
    enqueued q (scheduler_add_process p s) := by
  by_cases hp : p.state = PState.ready
  · cases halg : s.algorithm with
    | roundRobin =>
      rw [add_rr p s halg hp]
      rcases h with h | h
      · exact Or.inl (List.mem_append_left _ h)
      · exact Or.inr h
    | priorityBased =>
      rw [add_pb p s halg hp]
      rcases h with h | ⟨i, hi⟩
      · exact Or.inl h
      · refine Or.inr ⟨i, ?_⟩
        show q ∈ Function.update s.priority_queues p.priority
          (p :: s.priority_queues p.priority) i
        rw [Function.update_apply]
        split
        · rename_i heq
          subst heq
          exact List.mem_cons_of_mem p hi
        · exact hi
    | cfs =>
      rw [add_cfs p s halg hp]
      rcases h with h | h
      · exact Or.inl (mem_cfsInsert_of_mem p q s.ready_queue h)
      · exact Or.inr h
  · rw [add_not_ready p s hp]
    exact h

lemma tickWakeScan_fst (t : Nat) :
    ∀ (table : List CProc) (s : SchedState),
      (tickWakeScan t table s).1 = table.map (tickWakeOne t) := by
  intro table
  induction table with
  | nil => intro s; rfl
  | cons p rest ih =>
    intro s
    unfold tickWakeScan tickWakeOne
    split
    · simp [ih]
      rename_i hc
      simp [tickWakeOne, hc]
    · simp [ih]
      rename_i hc
      simp [tickWakeOne, hc]

lemma tickWakeScan_enqueued_mono (t : Nat) :
    ∀ (table : List CProc) (s : SchedState) (q : CProc),
      enqueued q s → enqueued q (tickWakeScan t table s).2 := by
  intro table
  induction table with
  | nil => intro s q h; exact h
  | cons p rest ih =>
    intro s q h
    unfold tickWakeScan
    split
    · exact ih _ q (enqueued_add_mono _ q s h)
    · exact ih _ q h

lemma tickWakeScan_wakes (t : Nat) :
    ∀ (table : List CProc) (s : SchedState) (p : CProc),
      p ∈ table → p.state = PState.sleeping → p.sleep_until ≤ t →
      enqueued (process_wake p) (tickWakeScan t table s).2 := by
  intro table
  induction table with
  | nil => intro s p hp; cases hp
  | cons p0 rest ih =>
    intro s p hp hs hsu
    rcases List.mem_cons.mp hp with h | h
    · subst h
      unfold tickWakeScan
      rw [if_pos ⟨hs, hsu⟩]
      have hwake : (process_wake p).state = PState.ready := by
        simp [process_wake, hs]
      exact tickWakeScan_enqueued_mono t rest _ (process_wake p)
        (enqueued_add_self (process_wake p) s hwake)
    · unfold tickWakeScan
      split
      · exact ih _ p h hs hsu
      · exact ih _ p h hs hsu

lemma scheduler_tick_fst (t : Nat) (cur : Option CProc) (table : List CProc)
    (s : SchedState) :
    (scheduler_tick t cur table s).1 = (tickWakeScan t table s).1 := rfl

/-- C4 (amended): process_sleep(50) stores (current tick + 5) mod 2^32 into
the uint32 sleep_until field — equal to tick + 5 whenever that fits in 32
bits; scheduler_tick never wakes a SLEEPING process at a tick strictly
before its sleep_until (its table entry is unchanged), and at any tick at
or after it the entry is woken READY — and, for a tick with no current
process (so the preemption path cannot immediately dequeue), re-enqueued
in the scheduler. -/
theorem sleep_and_tick_wake :
    (∀ t : Nat, t + 5 < U32 → process_sleep_until t 50 = t + 5 ∧
        (∀ p : CProc, (process_sleep t 50 p).state = PState.sleeping ∧
          (process_sleep t 50 p).sleep_until = t + 5)) ∧
    (∀ (t : Nat) (cur : Option CProc) (table : List CProc) (s : SchedState) (p : CProc),
        p ∈ table → p.state = PState.sleeping → t < p.sleep_until →
        p ∈ (scheduler_tick t cur table s).1) ∧
    (∀ (t : Nat) (cur : Option CProc) (table : List CProc) (s : SchedState) (p : CProc),
        p ∈ table → p.state = PState.sleeping → p.sleep_until ≤ t →
        process_wake p ∈ (scheduler_tick t cur table s).1 ∧
        (process_wake p).state = PState.ready ∧
        (cur = none → enqueued (process_wake p) (scheduler_tick t cur table s).2.1)) := by
  refine ⟨?_, ?_, ?_⟩
  · intro t h32
    have h1 : process_sleep_until t 50 = t + 5 := by
      unfold process_sleep_until
      norm_num
      exact Nat.mod_eq_of_lt h32
    exact ⟨h1, fun p => ⟨rfl, h1⟩⟩
  · intro t cur table s p hp hs hlt
    rw [scheduler_tick_fst, tickWakeScan_fst]
    have hone : tickWakeOne t p = p := by
      unfold tickWakeOne
      rw [if_neg]
      intro hc
      omega
    have hmem := List.mem_map_of_mem (tickWakeOne t) hp
    rw [hone] at hmem
    exact hmem
  · intro t cur table s p hp hs hsu
    have hwake : (process_wake p).state = PState.ready := by
      simp [process_wake, hs]
    refine ⟨?_, hwake, ?_⟩
    · rw [scheduler_tick_fst, tickWakeScan_fst]
      have hone : tickWakeOne t p = process_wake p := by
        unfold tickWakeOne
        rw [if_pos ⟨hs, hsu⟩]
      have hmem := List.mem_map_of_mem (tickWakeOne t) hp
      rw [hone] at hmem
      exact hmem
    · intro hcur
      subst hcur
      exact tickWakeScan_wakes t table s p hp hs hsu

/-- C4 counterexample: at tick 2^32 - 1 the uint32 sleep_until field
truncates — process_sleep(50) stores 4, not tick + 5. -/
theorem sleep_until_truncation_cex :
    process_sleep_until (U32 - 1) 50 ≠ (U32 - 1) + 5 ∧
    process_sleep_until (U32 - 1) 50 = 4 := by
  refine ⟨by decide, by decide⟩

/-- C4 witness: at tick 10, a sleeper due at 20 is untouched while a
sleeper due at 5 is woken and re-enqueued. -/
theorem sleep_and_tick_wake_witness :
    process_sleep_until 10 50 = 10 + 5 ∧
    mkSleeper 1 20 ∈ (scheduler_tick 10 none [mkSleeper 1 20, mkSleeper 2 5] schedRR0).1 ∧
    process_wake (mkSleeper 2 5) ∈
      (scheduler_tick 10 none [mkSleeper 1 20, mkSleeper 2 5] schedRR0).1 ∧
    enqueued (process_wake (mkSleeper 2 5))
      (scheduler_tick 10 none [mkSleeper 1 20, mkSleeper 2 5] schedRR0).2.1 :=
  ⟨(sleep_and_tick_wake.1 10 (by decide)).1,
   sleep_and_tick_wake.2.1 10 none [mkSleeper 1 20, mkSleeper 2 5] schedRR0
      (mkSleeper 1 20) (by decide) (by decide) (by decide),
   (sleep_and_tick_wake.2.2 10 none [mkSleeper 1 20, mkSleeper 2 5] schedRR0
      (mkSleeper 2 5) (by decide) (by decide) (by decide)).1,
   (sleep_and_tick_wake.2.2 10 none [mkSleeper 1 20, mkSleeper 2 5] schedRR0
      (mkSleeper 2 5) (by decide) (by decide) (by decide)).2.2 rfl⟩

/-- C8 (amended): process_sleep establishes sleep_until strictly greater
than the current tick precisely when the millisecond argument is at least
10 (one full tick at the 100 Hz conversion) and the 32-bit store does not
truncate; for ms below 10 the stored deadline equals the current tick. -/
theorem sleep_until_strict_after_10ms (ticks ms : Nat) (p : CProc) (h10 : 10 ≤ ms)
    (h32 : ticks + ms / 10 < U32) :
    ticks < process_sleep_until ticks ms ∧
    (process_sleep ticks ms p).state = PState.sleeping ∧
    (process_sleep ticks ms p).sleep_until = process_sleep_until ticks ms := by
  have hdiv : 1 ≤ ms / 10 := (Nat.one_le_div_iff (by norm_num)).mpr h10
  have h1 : process_sleep_until ticks ms = ticks + ms / 10 := by
    unfold process_sleep_until
    exact Nat.mod_eq_of_lt h32
  refine ⟨by omega, rfl, rfl⟩

/-- C8 counterexample: process_sleep(0) at tick 100 stores sleep_until =
100, not strictly greater; and at tick 2^32 - 1 a 20 ms sleep stores 1,
far below the current tick — the SLEEPING-implies-future-deadline
invariant fails. -/
theorem sleep_until_not_strict_cex :
    ¬ (100 < process_sleep_until 100 0) ∧
    ¬ ((U32 - 1) < process_sleep_until (U32 - 1) 20) := by
  refine ⟨by decide, by decide⟩

/-- C8 witness: a 30 ms sleep at tick 7 stores deadline 10 > 7. -/
theorem sleep_until_strict_after_10ms_witness :
    7 < process_sleep_until 7 30 ∧
    (process_sleep 7 30 (mkReady 1)).state = PState.sleeping ∧
    (process_sleep 7 30 (mkReady 1)).sleep_until = process_sleep_until 7 30 :=
  sleep_until_strict_after_10ms 7 30 (mkReady 1) (by decide) (by decide)

end IOS
